import Mathlib

/-!
Verification of `src/bibtex_postprocessor.py` (endnote-bibtex-postprocessor).

The Python program operates on a `bibtexparser.Library`, an ordered sequence of
entries; each entry has a mutable `key : str` and a field dictionary mapping
field names to string values.  We embed the library as a `List Entry`, in-place
mutation as explicit state passing, and the `KeyError` raised by
`rename_entry_keys` as an `Option String` carrying the offending entry's
(original) key, mirroring the message
`f"Missing information (year, author, or title) for entry {entry.key}"`.

Python string operations used by the code are modelled character-exactly for
the ASCII range (the program's documented domain): `str.lower` lower-cases
ASCII letters (`Char.toLower`), `re.split` with a character class splits on
every occurrence of a class character and keeps empty pieces, and `str(i)`
renders a natural number in decimal.
-/

namespace BibtexPostprocessor

/-- A bibliography entry: a mutable key together with a field mapping.
`bibtexparser` exposes the fields through `fields_dict`, a dictionary keyed by
field name, so field names are unique within an entry; we model the mapping as
an association list looked up by first match. -/
structure Entry where
  key : String
  fields : List (String × String)
deriving DecidableEq

/-- Dictionary lookup `entry.fields_dict[name].value`, returning `none` where
Python raises `KeyError`. -/
def Entry.getField (e : Entry) (name : String) : Option String :=
  (e.fields.find? (fun f => f.1 == name)).map (fun f => f.2)

/-- The white-space characters matched by Python's regex class `\s` on `str`
patterns (Unicode whitespace). -/
def pySpaceChars : List Char :=
  [' ', '\t', '\n', '\r', '\x0b', '\x0c',
   '\x1c', '\x1d', '\x1e', '\x1f', '\u0085', '\u00a0', '\u1680',
   '\u2000', '\u2001', '\u2002', '\u2003', '\u2004', '\u2005', '\u2006',
   '\u2007', '\u2008', '\u2009', '\u200a', '\u2028', '\u2029', '\u202f',
   '\u205f', '\u3000']

/-- The characters of the regex class used on author text, `[,\s]`
(line 45 of the source). -/
def authorSepChars : List Char := ',' :: pySpaceChars

/-- The characters of the regex class used on title text (line 53 of the
source): colon, double quote, single quote, backtick, comma, whitespace. -/
def titleSepChars : List Char :=
  ':' :: Char.ofNat 34 :: Char.ofNat 39 :: Char.ofNat 96 :: ',' :: pySpaceChars

/-- Membership test for the author separator class. -/
def isAuthorSep (c : Char) : Bool := authorSepChars.contains c

/-- Membership test for the title separator class. -/
def isTitleSep (c : Char) : Bool := titleSepChars.contains c

/-- Model of Python's `str.lower` on the ASCII range: lower-case every
character. -/
def pyLower (s : String) : String := String.mk (s.data.map Char.toLower)

/-- Model of `re.split` with a single-character class: split the character
list at every separator character, keeping empty pieces (so the result is
never the empty list, and adjacent separators yield empty strings, exactly as
`re.split` does). -/
def splitChars (p : Char → Bool) : List Char → List (List Char)
  | [] => [[]]
  | c :: cs =>
    if p c then [] :: splitChars p cs
    else
      match splitChars p cs with
      | [] => [[c]]
      | t :: ts => (c :: t) :: ts

/-- String-level wrapper for `splitChars`. -/
def pySplit (p : Char → Bool) (s : String) : List String :=
  (splitChars p s.data).map String.mk

/-- Line 45: `re.split("[,\s]", authors)[0]`.  `re.split` always returns a
non-empty list, so indexing with `[0]` never fails; `headD` with default `""`
is exact because the list is provably non-empty. -/
def firstAuthorSurname (authors : String) : String :=
  (pySplit isAuthorSep authors).headD ""

/-- The article stop-words dropped from the split title (line 54). -/
def stopWords : List String := ["a", "an", "the"]

/-- Lines 55-60: accumulate title words until the accumulator is longer than
two characters (the check runs before each append, and `break` exits). -/
def titleIdentifierLoop (acc : String) : List String → String
  | [] => acc
  | part :: rest =>
    if acc.length > 2 then acc else titleIdentifierLoop (acc ++ part) rest

/-- Lines 52-60: split the (already lower-cased) title on the title separator
class, drop stop-words, and accumulate the first word(s). -/
def titleIdentifier (title : String) : String :=
  let split_title := pySplit isTitleSep title
  let filtered := split_title.filter (fun part => !(stopWords.contains part))
  titleIdentifierLoop "" filtered

/-- Line 61: `key_candidate = f"{first_author_surname}{year}{title_identifier}"`,
where `authors` and `title` are the lower-cased field values produced by the
extraction step and `year` is the raw field value. -/
def deriveCandidate (year authors title : String) : String :=
  firstAuthorSurname authors ++ year ++ titleIdentifier title

/-- Lines 42-50: read the `year`, `author` and `title` fields, lower-casing
the author and title text; `none` models the `KeyError` raised when any of
the three fields is absent. -/
def extractFields (e : Entry) : Option (String × String × String) :=
  match e.getField "year", e.getField "author", e.getField "title" with
  | some y, some a, some t => some (y, pyLower a, pyLower t)
  | _, _, _ => none

/-- Decimal digit character, as produced by Python's `str` on a digit. -/
def decDigitChar (d : Nat) : Char :=
  match d with
  | 0 => '0' | 1 => '1' | 2 => '2' | 3 => '3' | 4 => '4'
  | 5 => '5' | 6 => '6' | 7 => '7' | 8 => '8' | 9 => '9'
  | _ => '*'

/-- Decimal digits of `n`, least significant first; the fuel argument makes
the recursion structural, and any fuel at least the digit count is exact. -/
def decDigitsRev : Nat → Nat → List Char
  | 0, _ => []
  | _ + 1, 0 => []
  | fuel + 1, n + 1 => decDigitChar ((n + 1) % 10) :: decDigitsRev fuel ((n + 1) / 10)

/-- Model of Python's `str(n)` for a natural number: decimal representation,
most significant digit first, with `"0"` for zero. -/
def natToString (n : Nat) : String :=
  if n = 0 then "0" else String.mk (decDigitsRev n n).reverse

/-- Lines 69-72: the collision probe.  Starting from suffix `i = 2`, keep
incrementing while `candidate + str(i)` is among the library keys.  The
Python loop is unbounded; the fuel argument makes it structural, and fuel
`keys.length + 1` is provably sufficient (pigeonhole), so the model agrees
with the loop. -/
def appendSuffix (cand : String) (keys : List String) : Nat → Nat → String
  | i, 0 => cand ++ natToString i
  | i, fuel + 1 =>
    if (cand ++ natToString i) ∈ keys then appendSuffix cand keys (i + 1) fuel
    else cand ++ natToString i

/-- Lines 63-74: if the candidate is among the current library keys, append
the first unused numeric suffix starting from 2; otherwise keep the
candidate. -/
def resolveKey (cand : String) (keys : List String) : String :=
  if cand ∈ keys then appendSuffix cand keys 2 (keys.length + 1) else cand

/-- Lines 41-75: process the entries in order.  `done` holds the entries
already renamed; the collision check reads `[entry.key for entry in
library.entries]`, i.e. the keys of the whole current library: renamed
entries, the current entry (still with its original key), and the not yet
processed tail.  On a missing field the loop stops, returning the library in
its partially renamed state together with the offending entry's original
key. -/
def renameLoop (done : List Entry) : List Entry → List Entry × Option String
  | [] => (done, none)
  | e :: rest =>
    match extractFields e with
    | none => (done ++ e :: rest, some e.key)
    | some (year, authors, title) =>
      let cand := deriveCandidate year authors title
      let keys := (done ++ e :: rest).map Entry.key
      renameLoop (done ++ [{ e with key := resolveKey cand keys }]) rest

/-- `rename_entry_keys` (lines 36-75): rename every entry of the library;
the second component is `none` on success and carries the offending entry's
original key when the `KeyError` of lines 47-50 is raised. -/
def renameEntryKeys (lib : List Entry) : List Entry × Option String :=
  renameLoop [] lib

/-- Per-entry step of `remove_note_field`: `entry.pop("note")` deletes the
`note` binding from the field dictionary; on the association-list model this
removes the pairs named `note`. -/
def dropNote (e : Entry) : Entry :=
  { e with fields := e.fields.filter (fun f => !(f.1 == "note")) }

/-- `remove_note_field` (lines 78-89): drop the `note` field from every
entry; absence is a no-op (`except KeyError: pass`). -/
def removeNoteField (lib : List Entry) : List Entry :=
  lib.map dropNote

/-- Per-entry step of `add_braces_to_title_field`: rewrite the value bound to
`title` in the field dictionary to have surrounding curly braces; if no
`title` binding exists nothing changes (`except KeyError: pass`). -/
def braceTitle (e : Entry) : Entry :=
  { e with fields := e.fields.map (fun f =>
      if f.1 == "title" then (f.1, "\x7b" ++ f.2 ++ "\x7d") else f) }

/-- `add_braces_to_title_field` (lines 92-105): wrap every present title
value in curly braces; absence is a no-op. -/
def addBracesToTitleField (lib : List Entry) : List Entry :=
  lib.map braceTitle

/-- Replay of the renaming committed before a failure: process the entries of
`pre` exactly as `renameLoop` does while `rest` is still the unprocessed tail
behind them, and return only the processed prefix.  Used to state that a
failing run keeps (does not roll back) the keys already committed. -/
def renameUpTo (done : List Entry) : List Entry → List Entry → List Entry
  | [], _ => done
  | e :: pre, rest =>
    match extractFields e with
    | none => done
    | some (year, authors, title) =>
      let cand := deriveCandidate year authors title
      let keys := (done ++ e :: (pre ++ rest)).map Entry.key
      renameUpTo (done ++ [{ e with key := resolveKey cand keys }]) pre rest

/-- Accumulation step as the specification words it: append the next token
whenever the accumulated string's length is at most 2, stop once it
exceeds 2. -/
def specAccumulate (acc : String) : List String → String
  | [] => acc
  | tok :: rest =>
    if acc.length ≤ 2 then specAccumulate (acc ++ tok) rest else acc

/-- Title identifier as the specification words it (for comparison with
`titleIdentifier`, which is translated from the code): split the lower-cased
title on the delimiter characters, drop the stop-words, concatenate surviving
tokens in order while the accumulated length is at most 2; an empty token
list yields the empty string. -/
def specTitleIdentifier (title : String) : String :=
  match (pySplit isTitleSep title).filter (fun tok => !(stopWords.contains tok)) with
  | [] => ""
  | toks => specAccumulate "" toks

/-- The two-entry collection of the end-to-end scenario in the
specification. -/
def demoLib : List Entry :=
  [⟨"a", [("author", "Doe, Jane"), ("year", "2020"), ("title", "A Study of Networks")]⟩,
   ⟨"b", [("author", "Doe, John"), ("year", "2020"), ("title", "A Study of Networks")]⟩]

/-- A single entry whose original key coincides with its derived candidate
key. -/
def selfKeyEntry : Entry :=
  ⟨"doe2020study",
   [("author", "Doe, Jane"), ("year", "2020"), ("title", "A Study of Networks")]⟩

/-- An entry whose `year` value contains an upper-case letter. -/
def upperYearEntry : Entry :=
  ⟨"k", [("author", "Doe, Jane"), ("year", "2020A"), ("title", "Networks")]⟩

/-- An entry with a title, for the brace transform example. -/
def titledEntry : Entry := ⟨"k", [("title", "Deep Learning")]⟩

/-- A complete entry processed before the failing one in the missing-field
scenario. -/
def goodEntry : Entry :=
  ⟨"g", [("author", "Doe, Jane"), ("year", "2020"), ("title", "A Study of Networks")]⟩

/-- An entry lacking the `year` field. -/
def badEntry : Entry := ⟨"b", [("author", "Roe, Ann"), ("title", "Something")]⟩

/-- An entry behind the failing one in the missing-field scenario. -/
def afterEntry : Entry :=
  ⟨"c", [("author", "Poe, Eda"), ("year", "1999"), ("title", "Ravens")]⟩

/-- An entry whose author field is empty. -/
def emptyAuthorEntry : Entry :=
  ⟨"e", [("author", ""), ("year", "2020"), ("title", "Xyz")]⟩

/-- Model of the `pathlib.Path` data used by `postprocess_bibtex`: directory
part, stem, and suffix, with `str(p)` rendering them back to a path string. -/
structure PyPath where
  dir : String
  stem : String
  suffix : String
deriving DecidableEq

/-- Path rendering `str(p)`. -/
def pathStr (p : PyPath) : String := p.dir ++ "/" ++ p.stem ++ p.suffix

/-- Model of `stem.replace(" ", "_")`: with a one-character pattern,
`str.replace` substitutes every space character by an underscore. -/
def replaceSpaces (s : String) : String :=
  String.mk (s.data.map (fun c => if c = ' ' then '_' else c))

/-- Lines 142-159 of `postprocess_bibtex`: choose the output path.  When the
caller supplies none, derive `filepath.parent / (filepath.stem.replace(" ",
"_") + ".bib")` and raise `FileExistsError` if it renders to the same string
as the input path.  When the caller supplies a path it is used as-is (the
suffix and whitespace checks only log warnings). -/
def selectOutputPath (filepath : PyPath) (newFilepath : Option PyPath) :
    Except String PyPath :=
  match newFilepath with
  | none =>
    let np : PyPath := ⟨filepath.dir, replaceSpaces filepath.stem, ".bib"⟩
    if pathStr np = pathStr filepath then Except.error "FileExistsError"
    else Except.ok np
  | some np => Except.ok np

/-- A path whose default-derived output path coincides with it. -/
def samePath : PyPath := ⟨".", "refs", ".bib"⟩

/-- Per-character decimal value, inverse to `decDigitChar` on digits. -/
def digitVal (c : Char) : Nat := c.toNat - 48

/-- Value of a digit list, least significant digit first. -/
def digitsVal : List Char → Nat
  | [] => 0
  | c :: cs => digitVal c + 10 * digitsVal cs

/-! ## Decimal rendering -/

theorem digitVal_decDigitChar (d : Nat) (h : d < 10) :
    digitVal (decDigitChar d) = d := by
  interval_cases d <;> rfl

theorem digitsVal_decDigitsRev :
    ∀ fuel n, n ≤ fuel → digitsVal (decDigitsRev fuel n) = n := by
  intro fuel
  induction fuel with
  | zero =>
    intro n h
    interval_cases n
    rfl
  | succ f ih =>
    intro n h
    match n with
    | 0 => rfl
    | m + 1 =>
      have h1 : (m + 1) % 10 < 10 := Nat.mod_lt _ (by omega)
      have hdiv : (m + 1) / 10 < m + 1 := Nat.div_lt_self (Nat.succ_pos m) (by omega)
      have h2 : (m + 1) / 10 ≤ f := by omega
      simp only [decDigitsRev, digitsVal, digitVal_decDigitChar _ h1, ih _ h2]
      omega

theorem digitsVal_natToString (n : Nat) :
    digitsVal (natToString n).data.reverse = n := by
  by_cases h : n = 0
  · subst h; rfl
  · simp only [natToString, if_neg h]
    rw [List.reverse_reverse]
    exact digitsVal_decDigitsRev n n (le_refl n)

theorem natToString_injective {m n : Nat} (h : natToString m = natToString n) :
    m = n := by
  have := congrArg (fun s => digitsVal s.data.reverse) h
  simpa [digitsVal_natToString] using this

theorem append_natToString_injOn (cand : String) {i j : Nat}
    (h : cand ++ natToString i = cand ++ natToString j) : i = j := by
  apply natToString_injective
  have hd := congrArg String.data h
  simp only [String.data_append] at hd
  exact String.ext (List.append_cancel_left hd)

/-! ## The collision probe terminates with a fresh key -/

theorem exists_suffix_free (cand : String) (keys : List String) (i : Nat) :
    ∃ j, i ≤ j ∧ j < i + (keys.length + 1) ∧ cand ++ natToString j ∉ keys := by
  by_contra hc
  push_neg at hc
  have hsub : (Finset.Ico i (i + (keys.length + 1))).image
      (fun j => cand ++ natToString j) ⊆ keys.toFinset := by
    intro x hx
    simp only [Finset.mem_image, Finset.mem_Ico] at hx
    obtain ⟨j, ⟨hj1, hj2⟩, rfl⟩ := hx
    exact List.mem_toFinset.mpr (hc j hj1 hj2)
  have hinj : Set.InjOn (fun j => cand ++ natToString j)
      ↑(Finset.Ico i (i + (keys.length + 1))) := by
    intro a _ b _ hab
    exact append_natToString_injOn cand hab
  have hcard := Finset.card_le_card hsub
  rw [Finset.card_image_of_injOn hinj, Nat.card_Ico] at hcard
  have hle := keys.toFinset_card_le
  omega

theorem appendSuffix_spec (cand : String) (keys : List String) :
    ∀ fuel i, (∃ j, i ≤ j ∧ j < i + fuel ∧ cand ++ natToString j ∉ keys) →
      ∃ m, i ≤ m ∧ appendSuffix cand keys i fuel = cand ++ natToString m ∧
        cand ++ natToString m ∉ keys ∧
        ∀ j, i ≤ j → j < m → cand ++ natToString j ∈ keys := by
  intro fuel
  induction fuel with
  | zero =>
    rintro i ⟨j, h1, h2, -⟩
    omega
  | succ f ih =>
    rintro i ⟨j, hj1, hj2, hj3⟩
    by_cases hmem : (cand ++ natToString i) ∈ keys
    · have hji : i ≠ j := fun h => hj3 (h ▸ hmem)
      obtain ⟨m, hm1, hm2, hm3, hm4⟩ :=
        ih (i + 1) ⟨j, by omega, by omega, hj3⟩
      refine ⟨m, by omega, ?_, hm3, ?_⟩
      · simpa [appendSuffix, hmem] using hm2
      · intro k hk1 hk2
        rcases Nat.eq_or_lt_of_le hk1 with rfl | hk
        · exact hmem
        · exact hm4 k (by omega) hk2
    · refine ⟨i, le_refl i, by simp [appendSuffix, hmem], hmem, ?_⟩
      intro k hk1 hk2
      omega

theorem resolveKey_not_mem (cand : String) (keys : List String) :
    resolveKey cand keys ∉ keys := by
  unfold resolveKey
  split
  · obtain ⟨j, hj1, hj2, hj3⟩ := exists_suffix_free cand keys 2
    obtain ⟨m, -, hm2, hm3, -⟩ :=
      appendSuffix_spec cand keys (keys.length + 1) 2 ⟨j, hj1, hj2, hj3⟩
    rw [hm2]
    exact hm3
  · assumption

theorem resolveKey_of_not_mem (cand : String) (keys : List String)
    (h : cand ∉ keys) : resolveKey cand keys = cand := by
  simp [resolveKey, h]

theorem resolveKey_of_mem (cand : String) (keys : List String)
    (h : cand ∈ keys) :
    ∃ m, 2 ≤ m ∧ resolveKey cand keys = cand ++ natToString m ∧
      cand ++ natToString m ∉ keys ∧
      ∀ j, 2 ≤ j → j < m → cand ++ natToString j ∈ keys := by
  rw [show resolveKey cand keys = appendSuffix cand keys 2 (keys.length + 1) by
    simp [resolveKey, h]]
  obtain ⟨j, hj1, hj2, hj3⟩ := exists_suffix_free cand keys 2
  exact appendSuffix_spec cand keys (keys.length + 1) 2 ⟨j, hj1, hj2, hj3⟩

/-! ## The renaming pass -/

theorem renameLoop_nodup :
    ∀ (rest done lib' : List Entry) (hnd : (done.map Entry.key).Nodup)
      (heq : renameLoop done rest = (lib', none)),
      (lib'.map Entry.key).Nodup := by
  intro rest
  induction rest with
  | nil =>
    intro done lib' hnd heq
    simp only [renameLoop, Prod.mk.injEq] at heq
    rw [← heq.1]
    exact hnd
  | cons e rest ih =>
    intro done lib' hnd heq
    cases hext : extractFields e with
    | none => simp [renameLoop, hext] at heq
    | some triple =>
      obtain ⟨y, a, t⟩ := triple
      simp only [renameLoop, hext] at heq
      refine ih _ _ ?_ heq
      have hnm := resolveKey_not_mem (deriveCandidate y a t)
        ((done ++ e :: rest).map Entry.key)
      have hup : ∀ x, x ∈ done.map Entry.key → x ∈ (done ++ e :: rest).map Entry.key := by
        intro x hx
        rw [List.map_append]
        exact List.mem_append_left _ hx
      have hnotdone :
          resolveKey (deriveCandidate y a t) ((done ++ e :: rest).map Entry.key)
            ∉ done.map Entry.key :=
        fun hmem => hnm (hup _ hmem)
      rw [List.map_append, List.nodup_append]
      refine ⟨hnd, List.nodup_singleton _, ?_⟩
      intro x hx hx1
      simp only [List.map_cons, List.map_nil, List.mem_singleton] at hx1
      subst hx1
      exact hnotdone hx

theorem renameLoop_fields :
    ∀ (rest done : List Entry),
      (renameLoop done rest).1.map Entry.fields =
        done.map Entry.fields ++ rest.map Entry.fields := by
  intro rest
  induction rest with
  | nil => intro done; simp [renameLoop]
  | cons e rest ih =>
    intro done
    cases hext : extractFields e with
    | none => simp [renameLoop, hext]
    | some triple =>
      obtain ⟨y, a, t⟩ := triple
      simp only [renameLoop, hext]
      rw [ih]
      simp

theorem renameLoop_error :
    ∀ (pre done : List Entry) (bad : Entry) (post : List Entry)
      (hpre : ∀ e ∈ pre, (extractFields e).isSome)
      (hbad : extractFields bad = none),
      renameLoop done (pre ++ bad :: post) =
        (renameUpTo done pre (bad :: post) ++ bad :: post, some bad.key) := by
  intro pre
  induction pre with
  | nil =>
    intro done bad post _ hbad
    simp [renameLoop, renameUpTo, hbad]
  | cons e pre ih =>
    intro done bad post hpre hbad
    have he : (extractFields e).isSome := hpre e (List.mem_cons_self e pre)
    rw [Option.isSome_iff_exists] at he
    obtain ⟨⟨y, a, t⟩, hext⟩ := he
    simp only [List.cons_append, renameLoop, renameUpTo, hext]
    exact ih _ bad post (fun x hx => hpre x (List.mem_cons_of_mem e hx)) hbad

theorem mem_of_charList_contains {l : List Char} {c : Char}
    (h : l.contains c = true) : c ∈ l :=
  List.elem_iff.mp h

/-! ## Splitting -/

theorem splitChars_shape (p : Char → Bool) :
    ∀ l : List Char, ∃ t ts, splitChars p l = t :: ts := by
  intro l
  induction l with
  | nil => exact ⟨[], [], rfl⟩
  | cons c cs ih =>
    obtain ⟨t, ts, hts⟩ := ih
    by_cases hc : p c
    · exact ⟨[], splitChars p cs, by simp [splitChars, hc]⟩
    · exact ⟨c :: t, ts, by simp [splitChars, hc, hts]⟩

theorem splitChars_chars (p : Char → Bool) :
    ∀ (l : List Char) (t : List Char), t ∈ splitChars p l → ∀ c ∈ t, c ∈ l := by
  intro l
  induction l with
  | nil =>
    intro t ht c hc
    simp only [splitChars, List.mem_singleton] at ht
    subst ht
    simp at hc
  | cons a as ih =>
    intro t ht c hc
    by_cases ha : p a
    · rw [show splitChars p (a :: as) = [] :: splitChars p as by
        simp [splitChars, ha]] at ht
      rcases List.mem_cons.mp ht with h1 | h2
      · subst h1; simp at hc
      · exact List.mem_cons_of_mem a (ih t h2 c hc)
    · obtain ⟨t0, ts, hts⟩ := splitChars_shape p as
      rw [show splitChars p (a :: as) = (a :: t0) :: ts by
        simp [splitChars, ha, hts]] at ht
      rcases List.mem_cons.mp ht with h1 | h2
      · subst h1
        rcases List.mem_cons.mp hc with h3 | h4
        · rw [h3]; exact List.mem_cons_self a as
        · refine List.mem_cons_of_mem a (ih t0 ?_ c h4)
          rw [hts]
          exact List.mem_cons_self t0 ts
      · refine List.mem_cons_of_mem a (ih t ?_ c hc)
        rw [hts]
        exact List.mem_cons_of_mem t0 h2

/-! ## Lower-casing -/

theorem char_toNat_ofNat (n : Nat) (h : n < 0xd800) :
    (Char.ofNat n).toNat = n := by
  unfold Char.ofNat
  rw [dif_pos (Or.inl h)]
  rfl

theorem toLower_of_not_upper {c : Char}
    (h : ¬(c.toNat ≥ 65 ∧ c.toNat ≤ 90)) : Char.toLower c = c := by
  unfold Char.toLower
  exact if_neg h

theorem toLower_of_upper {c : Char}
    (h : c.toNat ≥ 65 ∧ c.toNat ≤ 90) : Char.toLower c = Char.ofNat (c.toNat + 32) := by
  unfold Char.toLower
  exact if_pos h

theorem toLower_toLower (c : Char) :
    Char.toLower (Char.toLower c) = Char.toLower c := by
  by_cases h : c.toNat ≥ 65 ∧ c.toNat ≤ 90
  · rw [toLower_of_upper h]
    apply toLower_of_not_upper
    rw [char_toNat_ofNat _ (by omega)]
    omega
  · rw [toLower_of_not_upper h]
    exact toLower_of_not_upper h

theorem data_pyLower (s : String) : (pyLower s).data = s.data.map Char.toLower := rfl

theorem toLower_fix_of_mem_pyLower {s : String} {c : Char}
    (h : c ∈ (pyLower s).data) : Char.toLower c = c := by
  rw [data_pyLower] at h
  obtain ⟨c0, -, rfl⟩ := List.mem_map.mp h
  exact toLower_toLower c0

theorem pyLower_fix_of_chars {u : String}
    (h : ∀ c ∈ u.data, Char.toLower c = c) : pyLower u = u := by
  apply String.ext
  rw [data_pyLower, List.map_congr_left h]
  simp

/-! ## Title identifier and surname -/

theorem titleIdentifierLoop_chars :
    ∀ (toks : List String) (acc : String) (c : Char),
      c ∈ (titleIdentifierLoop acc toks).data →
      c ∈ acc.data ∨ ∃ tok ∈ toks, c ∈ tok.data := by
  intro toks
  induction toks with
  | nil => intro acc c hc; exact Or.inl hc
  | cons t rest ih =>
    intro acc c hc
    simp only [titleIdentifierLoop] at hc
    by_cases h : acc.length > 2
    · rw [if_pos h] at hc
      exact Or.inl hc
    · rw [if_neg h] at hc
      rcases ih (acc ++ t) c hc with h1 | ⟨tok, htok, hctok⟩
      · rw [String.data_append] at h1
        rcases List.mem_append.mp h1 with h2 | h3
        · exact Or.inl h2
        · exact Or.inr ⟨t, List.mem_cons_self t rest, h3⟩
      · exact Or.inr ⟨tok, List.mem_cons_of_mem t htok, hctok⟩

theorem titleIdentifier_chars (title : String) (c : Char)
    (hc : c ∈ (titleIdentifier title).data) : c ∈ title.data := by
  simp only [titleIdentifier] at hc
  rcases titleIdentifierLoop_chars _ _ _ hc with h1 | ⟨tok, htok, hctok⟩
  · simp at h1
  · have htok2 : tok ∈ pySplit isTitleSep title := List.mem_of_mem_filter htok
    obtain ⟨piece, hpiece, rfl⟩ := List.mem_map.mp htok2
    exact splitChars_chars isTitleSep title.data piece hpiece c hctok

theorem firstAuthorSurname_chars (a : String) (c : Char)
    (hc : c ∈ (firstAuthorSurname a).data) : c ∈ a.data := by
  obtain ⟨t0, ts, hts⟩ := splitChars_shape isAuthorSep a.data
  rw [show firstAuthorSurname a = String.mk t0 by
    simp [firstAuthorSurname, pySplit, hts]] at hc
  refine splitChars_chars isAuthorSep a.data t0 ?_ c hc
  rw [hts]
  exact List.mem_cons_self t0 ts

theorem firstAuthorSurname_sep_head (a : String) (c : Char) (cs : List Char)
    (hdata : a.data = c :: cs) (hsep : isAuthorSep c = true) :
    firstAuthorSurname a = "" := by
  unfold firstAuthorSurname pySplit
  rw [hdata]
  rw [show splitChars isAuthorSep (c :: cs) = [] :: splitChars isAuthorSep cs by
    simp [splitChars, hsep]]
  rfl

theorem titleIdentifierLoop_eq_specAccumulate :
    ∀ (l : List String) (acc : String),
      titleIdentifierLoop acc l = specAccumulate acc l := by
  intro l
  induction l with
  | nil => intro acc; rfl
  | cons t rest ih =>
    intro acc
    simp only [titleIdentifierLoop, specAccumulate]
    by_cases h : acc.length > 2
    · rw [if_pos h, if_neg (by omega)]
    · rw [if_neg h, if_pos (by omega), ih]

/-! ## Field-transform lookups -/

theorem find?_filter_not_note (name : String) (h : name ≠ "note") :
    ∀ l : List (String × String),
      (l.filter (fun f => !(f.1 == "note"))).find? (fun f => f.1 == name) =
        l.find? (fun f => f.1 == name) := by
  intro l
  induction l with
  | nil => rfl
  | cons f l ih =>
    obtain ⟨n, v⟩ := f
    by_cases hf : n = "note"
    · subst hf
      rw [List.filter_cons_of_neg (by simp)]
      rw [List.find?_cons_of_neg (p := fun g : String × String => g.1 == name) _
        (by simp; exact Ne.symm h)]
      exact ih
    · rw [List.filter_cons_of_pos (by simp [hf])]
      by_cases hfn : n = name
      · have hp : ((fun g : String × String => g.1 == name) (n, v)) = true := by
          simp [hfn]
        rw [List.find?_cons_of_pos (p := fun g : String × String => g.1 == name) _ hp,
          List.find?_cons_of_pos (p := fun g : String × String => g.1 == name) _ hp]
      · have hp : ¬(((fun g : String × String => g.1 == name) (n, v)) = true) := by
          simp [hfn]
        rw [List.find?_cons_of_neg (p := fun g : String × String => g.1 == name) _ hp,
          List.find?_cons_of_neg (p := fun g : String × String => g.1 == name) _ hp]
        exact ih

theorem getField_dropNote_note (e : Entry) : (dropNote e).getField "note" = none := by
  have hnone : (e.fields.filter (fun f => !(f.1 == "note"))).find?
      (fun f => f.1 == "note") = none := by
    rw [List.find?_eq_none]
    intro f hf hpf
    have h2 := List.of_mem_filter hf
    rw [hpf] at h2
    simp at h2
  simp [dropNote, Entry.getField, hnone]

theorem getField_dropNote_other (e : Entry) (name : String) (h : name ≠ "note") :
    (dropNote e).getField name = e.getField name := by
  simp only [dropNote, Entry.getField, find?_filter_not_note name h]

theorem find?_braceMap_title :
    ∀ l : List (String × String),
      (l.map (fun f => if f.1 == "title" then (f.1, "\x7b" ++ f.2 ++ "\x7d") else f)).find?
          (fun f => f.1 == "title") =
        (l.find? (fun f => f.1 == "title")).map
          (fun f => (f.1, "\x7b" ++ f.2 ++ "\x7d")) := by
  intro l
  induction l with
  | nil => rfl
  | cons f l ih =>
    obtain ⟨n, v⟩ := f
    by_cases hf : n = "title"
    · subst hf
      simp only [List.map_cons, List.find?_cons]
      simp [-List.find?_map, ih]
    · have hb : (n == "title") = false := by simp [hf]
      simp only [List.map_cons, List.find?_cons, hb, Bool.false_eq_true, if_false]
      exact ih

theorem find?_braceMap_other (name : String) (h : name ≠ "title") :
    ∀ l : List (String × String),
      (l.map (fun f => if f.1 == "title" then (f.1, "\x7b" ++ f.2 ++ "\x7d") else f)).find?
          (fun f => f.1 == name) =
        l.find? (fun f => f.1 == name) := by
  intro l
  induction l with
  | nil => rfl
  | cons f l ih =>
    obtain ⟨n, v⟩ := f
    by_cases hf : n = "title"
    · subst hf
      have hb2 : ("title" == name) = false := by
        simp
        exact Ne.symm h
      simp only [List.map_cons, List.find?_cons]
      simp only [beq_self_eq_true, if_true, hb2, Bool.false_eq_true]
      exact ih
    · have hb : (n == "title") = false := by simp [hf]
      by_cases hfn : n = name
      · subst hfn
        simp only [List.map_cons, List.find?_cons, hb, Bool.false_eq_true, if_false,
          beq_self_eq_true]
      · have hbn : (n == name) = false := by simp [hfn]
        simp only [List.map_cons, List.find?_cons, hb, hbn, Bool.false_eq_true, if_false]
        exact ih

theorem getField_braceTitle_title (e : Entry) :
    (braceTitle e).getField "title" =
      (e.getField "title").map (fun v => "\x7b" ++ v ++ "\x7d") := by
  simp only [braceTitle, Entry.getField, find?_braceMap_title]
  cases e.fields.find? (fun f => f.1 == "title") <;> rfl

theorem getField_braceTitle_other (e : Entry) (name : String) (h : name ≠ "title") :
    (braceTitle e).getField name = e.getField name := by
  simp only [braceTitle, Entry.getField, find?_braceMap_other name h]

theorem renameLoop_total :
    ∀ (rest done : List Entry),
      (∀ e ∈ rest, (extractFields e).isSome) →
      (renameLoop done rest).2 = none := by
  intro rest
  induction rest with
  | nil => intro done _; rfl
  | cons e rest ih =>
    intro done hall
    have he : (extractFields e).isSome := hall e (List.mem_cons_self e rest)
    rw [Option.isSome_iff_exists] at he
    obtain ⟨⟨y, a, t⟩, hext⟩ := he
    simp only [renameLoop, hext]
    exact ih _ (fun x hx => hall x (List.mem_cons_of_mem e hx))

theorem authorSep_toLower_fixed : ∀ c ∈ authorSepChars, Char.toLower c = c := by
  decide

/-! ## Claims -/

/-- C1: after `rename_entry_keys` completes without raising, the keys of the
output collection are pairwise distinct: entries at distinct positions carry
different key strings. -/
theorem rename_entry_keys_unique_keys (lib lib' : List Entry)
    (h : renameEntryKeys lib = (lib', none)) :
    ∀ i j (hi : i < lib'.length) (hj : j < lib'.length), i ≠ j →
      (lib'.get ⟨i, hi⟩).key ≠ (lib'.get ⟨j, hj⟩).key := by
  have hnd : (lib'.map Entry.key).Nodup :=
    renameLoop_nodup lib [] lib' (by simp) h
  intro i j hi hj hij hk
  apply hij
  have hmi : i < (lib'.map Entry.key).length := by simpa using hi
  have hmj : j < (lib'.map Entry.key).length := by simpa using hj
  have hgi : (lib'.map Entry.key).get ⟨i, hmi⟩ = (lib'.get ⟨i, hi⟩).key := by
    simp
  have hgj : (lib'.map Entry.key).get ⟨j, hmj⟩ = (lib'.get ⟨j, hj⟩).key := by
    simp
  have heq : (lib'.map Entry.key).get ⟨i, hmi⟩ = (lib'.map Entry.key).get ⟨j, hmj⟩ := by
    rw [hgi, hgj, hk]
  have hfin := List.nodup_iff_injective_get.mp hnd heq
  exact congrArg Fin.val hfin

/-- Witness for C1 at the end-to-end example collection. -/
theorem rename_entry_keys_unique_keys_witness :
    ((renameEntryKeys demoLib).1.get ⟨0, by decide⟩).key ≠
      ((renameEntryKeys demoLib).1.get ⟨1, by decide⟩).key :=
  rename_entry_keys_unique_keys demoLib (renameEntryKeys demoLib).1 (by decide)
    0 1 (by decide) (by decide) (by decide)

/-- C2 counterexample: the collision check consults the keys of ALL entries,
including the current entry's own (not yet reassigned) key.  For a singleton
collection whose entry's original key already equals the derived candidate,
the set of keys of the OTHER entries is empty, so by the claim the final key
would be the candidate unchanged; the code instead appends the suffix 2. -/
theorem collision_check_self_counterexample :
    extractFields selfKeyEntry = some ("2020", "doe, jane", "a study of networks") ∧
    deriveCandidate "2020" "doe, jane" "a study of networks" = "doe2020study" ∧
    selfKeyEntry.key = "doe2020study" ∧
    (renameEntryKeys [selfKeyEntry]).1.map Entry.key = ["doe2020study2"] ∧
    ("doe2020study2" : String) ≠ "doe2020study" := by
  decide

/-- C2 (amended): the collision step takes the candidate and the keys of all
entries of the current collection (the already-renamed prefix, the current
entry's own original key, and the original keys of the tail); if the
candidate is not among them it is kept unchanged, otherwise the smallest
suffix `m ≥ 2` whose appended form is unused is chosen. -/
theorem collision_resolution_amended :
    (∀ cand keys, cand ∉ keys → resolveKey cand keys = cand) ∧
    (∀ cand keys, cand ∈ keys →
      ∃ m, 2 ≤ m ∧ resolveKey cand keys = cand ++ natToString m ∧
        cand ++ natToString m ∉ keys ∧
        ∀ j, 2 ≤ j → j < m → cand ++ natToString j ∈ keys) ∧
    (∀ done e rest y a t, extractFields e = some (y, a, t) →
      renameLoop done (e :: rest) =
        renameLoop (done ++ [{ e with key := resolveKey (deriveCandidate y a t) ((done ++ e :: rest).map Entry.key) }]) rest) := by
  refine ⟨resolveKey_of_not_mem, resolveKey_of_mem, ?_⟩
  intro done e rest y a t hext
  simp [renameLoop, hext]

/-- Witness for C2 (amended) at concrete inputs. -/
theorem collision_resolution_amended_witness :
    resolveKey "x" [] = "x" ∧
    (∃ m, 2 ≤ m ∧ resolveKey "doe" ["doe", "doe2"] = "doe" ++ natToString m ∧
      "doe" ++ natToString m ∉ ["doe", "doe2"] ∧
      ∀ j, 2 ≤ j → j < m → "doe" ++ natToString j ∈ ["doe", "doe2"]) ∧
    renameLoop [] [selfKeyEntry] =
      renameLoop ([] ++ [{ selfKeyEntry with key := resolveKey (deriveCandidate "2020" "doe, jane" "a study of networks") (([] ++ selfKeyEntry :: []).map Entry.key) }]) [] :=
  ⟨collision_resolution_amended.1 "x" [] (by decide),
   collision_resolution_amended.2.1 "doe" ["doe", "doe2"] (by decide),
   collision_resolution_amended.2.2 [] selfKeyEntry [] "2020" "doe, jane"
     "a study of networks" (by decide)⟩

/-- C3: the title identifier computed by the code agrees with the
specification's description (split on the delimiters, drop stop-words,
concatenate surviving tokens while the accumulated length is at most 2,
stop once it exceeds 2), and an empty title yields the empty string rather
than a failure. -/
theorem title_identifier_matches_spec :
    (∀ title, titleIdentifier title = specTitleIdentifier title) ∧
    titleIdentifier "" = "" := by
  constructor
  · intro title
    simp only [titleIdentifier, specTitleIdentifier]
    cases hf : (pySplit isTitleSep title).filter (fun tok => !(stopWords.contains tok)) with
    | nil => rfl
    | cons a l => rw [titleIdentifierLoop_eq_specAccumulate]
  · decide

/-- C4 counterexample: the `year` value is included verbatim (never
lower-cased), so a year containing an upper-case letter makes the whole
candidate contain an upper-case letter, contradicting the claim that the
whole candidate string is lower-case. -/
theorem candidate_lowercase_counterexample :
    extractFields upperYearEntry = some ("2020A", "doe, jane", "networks") ∧
    deriveCandidate "2020A" "doe, jane" "networks" = "doe2020Anetworks" ∧
    ("doe2020Anetworks".data.any Char.isUpper) = true ∧
    pyLower "doe2020Anetworks" ≠ "doe2020Anetworks" := by
  decide

/-- C4 (amended): for an entry with the three fields present, the candidate
is surname ++ year ++ titleIdentifier with no separators; the surname and
title-identifier components are lower-case (fixed by lower-casing), while the
year is included verbatim, so the whole candidate is lower-case only when the
year is. -/
theorem candidate_structure_amended (e : Entry) (y a t : String)
    (h : extractFields e = some (y, a, t)) :
    deriveCandidate y a t = firstAuthorSurname a ++ y ++ titleIdentifier t ∧
    pyLower (firstAuthorSurname a) = firstAuthorSurname a ∧
    pyLower (titleIdentifier t) = titleIdentifier t := by
  obtain ⟨a0, ha0, t0, ht0⟩ : ∃ a0, a = pyLower a0 ∧ ∃ t0, t = pyLower t0 := by
    unfold extractFields at h
    cases hy : e.getField "year" with
    | none => rw [hy] at h; simp at h
    | some yv =>
      cases ha : e.getField "author" with
      | none => rw [hy, ha] at h; simp at h
      | some av =>
        cases ht : e.getField "title" with
        | none => rw [hy, ha, ht] at h; simp at h
        | some tv =>
          rw [hy, ha, ht] at h
          simp only [Option.some.injEq, Prod.mk.injEq] at h
          exact ⟨av, h.2.1.symm, tv, h.2.2.symm⟩
  refine ⟨rfl, ?_, ?_⟩
  · apply pyLower_fix_of_chars
    intro c hc
    have hca : c ∈ a.data := firstAuthorSurname_chars a c hc
    rw [ha0] at hca
    exact toLower_fix_of_mem_pyLower hca
  · apply pyLower_fix_of_chars
    intro c hc
    have hct : c ∈ t.data := titleIdentifier_chars t c hc
    rw [ht0] at hct
    exact toLower_fix_of_mem_pyLower hct

/-- Witness for C4 (amended) at a concrete entry. -/
theorem candidate_structure_amended_witness :
    deriveCandidate "2020" "doe, jane" "a study of networks" =
      firstAuthorSurname "doe, jane" ++ "2020" ++
        titleIdentifier "a study of networks" ∧
    pyLower (firstAuthorSurname "doe, jane") = firstAuthorSurname "doe, jane" ∧
    pyLower (titleIdentifier "a study of networks") =
      titleIdentifier "a study of networks" :=
  candidate_structure_amended goodEntry "2020" "doe, jane" "a study of networks"
    (by decide)

/-- C5: an entry missing one of author, year, title aborts the pass with an
error carrying that entry's original (pre-transform) key; the entries behind
it appear in the final state verbatim with their original keys (no entry
after it is assigned a new key), and the reassignments committed to the
entries before it are kept, exactly as replayed by `renameUpTo`. -/
theorem rename_missing_field (pre : List Entry) (bad : Entry) (post : List Entry)
    (hpre : ∀ e ∈ pre, (extractFields e).isSome)
    (hbad : extractFields bad = none) :
    renameEntryKeys (pre ++ bad :: post) =
      (renameUpTo [] pre (bad :: post) ++ bad :: post, some bad.key) :=
  renameLoop_error pre [] bad post hpre hbad

/-- Witness for C5: a concrete run whose second entry misses its year. -/
theorem rename_missing_field_witness :
    renameEntryKeys ([goodEntry] ++ badEntry :: [afterEntry]) =
      (renameUpTo [] [goodEntry] (badEntry :: [afterEntry]) ++
        badEntry :: [afterEntry], some badEntry.key) :=
  rename_missing_field [goodEntry] badEntry [afterEntry] (by decide) (by decide)

/-- C6: the end-to-end scenario: the two-entry collection with identical
derived candidates produces the output keys doe2020study and doe2020study2,
in that order, with no error. -/
theorem end_to_end_example :
    (renameEntryKeys demoLib).1.map Entry.key = ["doe2020study", "doe2020study2"] ∧
    (renameEntryKeys demoLib).2 = none := by
  decide

/-- C7: the title-bracing transform is not idempotent: one application wraps
a present title value t into brace t brace, a second application wraps it
again, and for the value Deep Learning the doubly-braced result differs from
the singly-braced one. -/
theorem braces_not_idempotent :
    (∀ (lib : List Entry) (i : Nat) (hi : i < lib.length)
        (hi1 : i < (addBracesToTitleField lib).length)
        (hi2 : i < (addBracesToTitleField (addBracesToTitleField lib)).length)
        (t : String),
        (lib.get ⟨i, hi⟩).getField "title" = some t →
        ((addBracesToTitleField lib).get ⟨i, hi1⟩).getField "title"
            = some ("\x7b" ++ t ++ "\x7d") ∧
        ((addBracesToTitleField (addBracesToTitleField lib)).get ⟨i, hi2⟩).getField "title"
            = some ("\x7b\x7b" ++ t ++ "\x7d\x7d")) ∧
    ((addBracesToTitleField (addBracesToTitleField [titledEntry])).get
        ⟨0, by decide⟩).getField "title" = some "\x7b\x7bDeep Learning\x7d\x7d" ∧
    ("\x7b\x7bDeep Learning\x7d\x7d" : String) ≠ "\x7bDeep Learning\x7d" := by
  refine ⟨?_, by decide, by decide⟩
  intro lib i hi hi1 hi2 t ht
  have h1 : (addBracesToTitleField lib).get ⟨i, hi1⟩ = braceTitle (lib.get ⟨i, hi⟩) := by
    simp [addBracesToTitleField]
  have h2 : (addBracesToTitleField (addBracesToTitleField lib)).get ⟨i, hi2⟩ =
      braceTitle (braceTitle (lib.get ⟨i, hi⟩)) := by
    simp [addBracesToTitleField]
  constructor
  · rw [h1, getField_braceTitle_title, ht]
    rfl
  · rw [h2, getField_braceTitle_title, getField_braceTitle_title, ht]
    show some ("\x7b" ++ ("\x7b" ++ t ++ "\x7d") ++ "\x7d") =
      some ("\x7b\x7b" ++ t ++ "\x7d\x7d")
    have hbl : ("\x7b\x7b" : String) = "\x7b" ++ "\x7b" := rfl
    have hbr : ("\x7d\x7d" : String) = "\x7d" ++ "\x7d" := rfl
    rw [hbl, hbr]
    apply congrArg
    apply String.ext
    simp [String.data_append]

/-- Witness for C7 at the Deep Learning entry. -/
theorem braces_not_idempotent_witness :
    ((addBracesToTitleField [titledEntry]).get ⟨0, by decide⟩).getField "title"
        = some ("\x7b" ++ "Deep Learning" ++ "\x7d") ∧
    ((addBracesToTitleField (addBracesToTitleField [titledEntry])).get
        ⟨0, by decide⟩).getField "title"
        = some ("\x7b\x7b" ++ "Deep Learning" ++ "\x7d\x7d") :=
  braces_not_idempotent.1 [titledEntry] 0 (by decide) (by decide) (by decide)
    "Deep Learning" (by decide)

/-- C8: each transform touches only its designated part: key renaming keeps
every entry's field list (hence entry count and order); note removal and
title bracing keep every key and the entry count; note removal only removes
the note binding and title bracing only rewrites the title value, all other
field lookups unchanged. -/
theorem transforms_frame :
    (∀ lib, (renameEntryKeys lib).1.map Entry.fields = lib.map Entry.fields) ∧
    (∀ lib, (removeNoteField lib).map Entry.key = lib.map Entry.key) ∧
    (∀ lib, (addBracesToTitleField lib).map Entry.key = lib.map Entry.key) ∧
    (∀ lib, (removeNoteField lib).length = lib.length ∧
      (addBracesToTitleField lib).length = lib.length) ∧
    (∀ e name, name ≠ "note" → (dropNote e).getField name = e.getField name) ∧
    (∀ e, (dropNote e).getField "note" = none) ∧
    (∀ e name, name ≠ "title" → (braceTitle e).getField name = e.getField name) := by
  refine ⟨?_, ?_, ?_, ?_, getField_dropNote_other, getField_dropNote_note,
    getField_braceTitle_other⟩
  · intro lib
    have h := renameLoop_fields lib []
    simpa [renameEntryKeys] using h
  · intro lib
    simp [removeNoteField, dropNote]
  · intro lib
    simp [addBracesToTitleField, braceTitle]
  · intro lib
    constructor <;> simp [removeNoteField, addBracesToTitleField]

/-- Witness for C8 at concrete entries and field names. -/
theorem transforms_frame_witness :
    (dropNote goodEntry).getField "author" = goodEntry.getField "author" ∧
    (braceTitle goodEntry).getField "author" = goodEntry.getField "author" :=
  ⟨transforms_frame.2.2.2.2.1 goodEntry "author" (by decide),
   transforms_frame.2.2.2.2.2.2 goodEntry "author" (by decide)⟩

/-- C9 counterexample: a caller-supplied output path equal to the input path
is accepted unchanged (the input file would be overwritten); no
FileExistsError is raised, contradicting the claim that the error is raised
regardless of whether the destination was supplied by the caller or derived
by default. -/
theorem duplicate_output_counterexample :
    selectOutputPath samePath (some samePath) = Except.ok samePath ∧
    pathStr samePath = pathStr samePath ∧
    selectOutputPath samePath (some samePath) ≠
      Except.error "FileExistsError" := by
  refine ⟨rfl, rfl, by simp [selectOutputPath]⟩

/-- C9 (amended): FileExistsError is raised exactly when the caller supplies
no output path and the default-derived path (same directory, stem with
spaces replaced by underscores, suffix .bib) renders to the same string as
the input path; a caller-supplied path is always accepted as-is, even when
it equals the input. -/
theorem select_output_path_amended :
    (∀ p q, selectOutputPath p (some q) = Except.ok q) ∧
    (∀ p, pathStr ⟨p.dir, replaceSpaces p.stem, ".bib"⟩ = pathStr p →
      selectOutputPath p none = Except.error "FileExistsError") ∧
    (∀ p, pathStr ⟨p.dir, replaceSpaces p.stem, ".bib"⟩ ≠ pathStr p →
      selectOutputPath p none =
        Except.ok ⟨p.dir, replaceSpaces p.stem, ".bib"⟩) := by
  refine ⟨fun p q => rfl, ?_, ?_⟩
  · intro p hp
    simp [selectOutputPath, hp]
  · intro p hp
    simp [selectOutputPath, hp]

/-- Witness for C9 (amended) at concrete paths. -/
theorem select_output_path_amended_witness :
    selectOutputPath samePath none = Except.error "FileExistsError" ∧
    selectOutputPath ⟨".", "my refs", ".bib"⟩ none =
      Except.ok ⟨".", replaceSpaces "my refs", ".bib"⟩ :=
  ⟨select_output_path_amended.2.1 samePath (by decide),
   select_output_path_amended.2.2 ⟨".", "my refs", ".bib"⟩ (by decide)⟩

/-- C10: key derivation is total on entries that carry author, year and
title: the pass raises no error on such collections, extraction always
succeeds, and when the author text is empty or begins with a comma or a
whitespace character the surname component is empty and the candidate is
year followed by the title identifier. -/
theorem rename_total_on_complete_entries :
    (∀ lib, (∀ e ∈ lib, (e.getField "author").isSome ∧ (e.getField "year").isSome ∧
        (e.getField "title").isSome) → (renameEntryKeys lib).2 = none) ∧
    (∀ e y a0 t0, e.getField "year" = some y → e.getField "author" = some a0 →
      e.getField "title" = some t0 →
      extractFields e = some (y, pyLower a0, pyLower t0) ∧
      ((a0 = "" ∨ ∃ c cs, a0.data = c :: cs ∧ isAuthorSep c = true) →
        firstAuthorSurname (pyLower a0) = "" ∧
        deriveCandidate y (pyLower a0) (pyLower t0) =
          y ++ titleIdentifier (pyLower t0))) := by
  constructor
  · intro lib hall
    apply renameLoop_total
    intro e he
    obtain ⟨ha, hy, ht⟩ := hall e he
    rw [Option.isSome_iff_exists] at ha hy ht
    obtain ⟨av, ha⟩ := ha
    obtain ⟨yv, hy⟩ := hy
    obtain ⟨tv, ht⟩ := ht
    simp [extractFields, ha, hy, ht]
  · intro e y a0 t0 hy ha ht
    constructor
    · simp [extractFields, hy, ha, ht]
    · intro hstart
      have hsurname : firstAuthorSurname (pyLower a0) = "" := by
        rcases hstart with rfl | ⟨c, cs, hdata, hsep⟩
        · rfl
        · apply firstAuthorSurname_sep_head (pyLower a0) (Char.toLower c)
            (cs.map Char.toLower)
          · rw [data_pyLower, hdata]
            rfl
          · rw [authorSep_toLower_fixed c (mem_of_charList_contains hsep)]
            exact hsep
      refine ⟨hsurname, ?_⟩
      unfold deriveCandidate
      rw [hsurname]
      apply String.ext
      simp [String.data_append]

/-- Witness for C10 at an entry with an empty author field. -/
theorem rename_total_witness :
    (renameEntryKeys [emptyAuthorEntry]).2 = none ∧
    extractFields emptyAuthorEntry = some ("2020", pyLower "", pyLower "Xyz") ∧
    firstAuthorSurname (pyLower "") = "" ∧
    deriveCandidate "2020" (pyLower "") (pyLower "Xyz") =
      "2020" ++ titleIdentifier (pyLower "Xyz") := by
  have h := rename_total_on_complete_entries.2 emptyAuthorEntry "2020" "" "Xyz"
    (by decide) (by decide) (by decide)
  exact ⟨rename_total_on_complete_entries.1 [emptyAuthorEntry] (by decide),
    h.1, (h.2 (Or.inl rfl)).1, (h.2 (Or.inl rfl)).2⟩

end BibtexPostprocessor
